import Mathlib

/-!
Verification of the FCP analytics dashboard's statistical core.

This file shallowly embeds the data-handling and statistics functions of the
repository (pandas/numpy code translated to Lean over `ℚ` and `ℝ`) and proves
or refutes the specification claims about them.

Numbers are modelled as exact rationals (`ℚ`) except where a square root is
taken (the Sharpe ratio annualisation), where `ℝ` is used.  Pandas `NaN`
results are modelled with `Option`.
-/

namespace FCP

/-! ## Basic list statistics (pandas `mean`, `std`, `min`, `max`) -/

/-- Arithmetic mean of a list of rationals; `0` on the empty list
(pandas returns `NaN` there, callers below guard against it). -/
def listMean (l : List ℚ) : ℚ := l.sum / l.length

/-- Minimum of a list, as Python `min`; junk value `0` on `[]`. -/
def listMin : List ℚ → ℚ
  | [] => 0
  | x :: xs => xs.foldl min x

/-- Maximum of a list, as Python `max`; junk value `0` on `[]`. -/
def listMax : List ℚ → ℚ
  | [] => 0
  | x :: xs => xs.foldl max x

theorem foldl_min_le_init (x : ℚ) (l : List ℚ) : l.foldl min x ≤ x := by
  induction l generalizing x with
  | nil => simp
  | cons a l ih => exact le_trans (ih (min x a)) (min_le_left x a)

theorem foldl_min_le_of_mem {l : List ℚ} {x : ℚ} (hx : x ∈ l) (a : ℚ) :
    l.foldl min a ≤ x := by
  induction l generalizing a with
  | nil => cases hx
  | cons b l ih =>
    rcases List.mem_cons.mp hx with rfl | hx
    · exact le_trans (foldl_min_le_init (min a x) l) (min_le_right a x)
    · exact ih hx (min a b)

theorem listMin_le_of_mem {l : List ℚ} {x : ℚ} (hx : x ∈ l) : listMin l ≤ x := by
  cases l with
  | nil => cases hx
  | cons a l =>
    simp only [listMin]
    rcases List.mem_cons.mp hx with rfl | hx
    · exact foldl_min_le_init x l
    · exact foldl_min_le_of_mem hx a

theorem init_le_foldl_max (x : ℚ) (l : List ℚ) : x ≤ l.foldl max x := by
  induction l generalizing x with
  | nil => simp
  | cons a l ih => exact le_trans (le_max_left x a) (ih (max x a))

theorem le_foldl_max_of_mem {l : List ℚ} {x : ℚ} (hx : x ∈ l) (a : ℚ) :
    x ≤ l.foldl max a := by
  induction l generalizing a with
  | nil => cases hx
  | cons b l ih =>
    rcases List.mem_cons.mp hx with rfl | hx
    · exact le_trans (le_max_right a x) (init_le_foldl_max (max a x) l)
    · exact ih hx (max a b)

theorem le_listMax_of_mem {l : List ℚ} {x : ℚ} (hx : x ∈ l) : x ≤ listMax l := by
  cases l with
  | nil => cases hx
  | cons a l =>
    simp only [listMax]
    rcases List.mem_cons.mp hx with rfl | hx
    · exact init_le_foldl_max x l
    · exact le_foldl_max_of_mem hx a

/-! ## Flow records (`2_Souscriptions_Rachats.py`, `3_Actifs_Nets.py`)

`calculate_net_flows` adds a signed-amount column:
positive for subscriptions, negative otherwise. -/

/-- A row of the `Souscriptions Rachats` sheet. -/
structure FlowRecord where
  date : Int
  fcp : String
  operations : String
  clientType : String
  montant : ℚ

/-- The signed amount `calculate_net_flows` derives for one record:
`x['Montant'] if x['Opérations'] == 'Souscriptions' else -x['Montant']`. -/
def montantSigne (r : FlowRecord) : ℚ :=
  if r.operations = "Souscriptions" then r.montant else -r.montant

/-- `calculate_net_flows`: copy of the records together with the signed column. -/
def calculate_net_flows (df : List FlowRecord) : List (FlowRecord × ℚ) :=
  df.map (fun r => (r, montantSigne r))

/-- Total amount of the records whose operation is `op`. -/
def totalByOperation (df : List FlowRecord) (op : String) : ℚ :=
  ((df.filter (fun r => r.operations = op)).map FlowRecord.montant).sum

/-! ## `safe_division` (`utils.py`)

Python values passed to `safe_division` are modelled by `PyVal`: an exact
number, the float `NaN`, or a non-numeric value (e.g. a string).  Division
that raises (`TypeError`, `ZeroDivisionError`) returns `none`. -/

/-- A dynamically typed Python value as seen by `safe_division`. -/
inductive PyVal where
  | num (q : ℚ)
  | nan
  | nonNumeric (s : String)
deriving DecidableEq

/-- Python `/` on `PyVal`; `none` models a raised exception
(`TypeError` on non-numeric operands, `ZeroDivisionError` on a zero
denominator). `NaN` propagates through division by a non-zero number. -/
def pyDiv : PyVal → PyVal → Option PyVal
  | PyVal.num a, PyVal.num b => if b = 0 then none else some (PyVal.num (a / b))
  | PyVal.nan, PyVal.num b => if b = 0 then none else some PyVal.nan
  | PyVal.num _, PyVal.nan => some PyVal.nan
  | PyVal.nan, PyVal.nan => some PyVal.nan
  | _, _ => none

/-- Python `denominator == 0` (false on `NaN` and non-numeric values). -/
def pyEqZero : PyVal → Bool
  | PyVal.num q => q = 0
  | _ => false

/-- `pd.isna` on a scalar. -/
def pd_isna : PyVal → Bool
  | PyVal.nan => true
  | _ => false

/-- `safe_division(numerator, denominator, default)`: the guarded division of
`utils.py`, with the `try/except` modelled by `Option.getD`. -/
def safe_division (numerator denominator : PyVal) (default : PyVal) : PyVal :=
  if pyEqZero denominator || pd_isna denominator then default
  else (pyDiv numerator denominator).getD default

/-! ## `load_data` (`utils.py`, `pages/1_Valeurs_Liquidatives.py`)

A table is a list of rows; each row carries the parsed `Date` cell
(`none` models `NaT`, the result of a failed `pd.to_datetime(..., errors='coerce')`)
and an opaque payload for the remaining columns.  `sort_values('Date')` orders
by date with `NaT` placed last (`na_position='last'`). -/

/-- The order `sort_values('Date')` uses: dates ascending, `NaT` last. -/
def dateLE : Option Int → Option Int → Bool
  | _, none => true
  | none, some _ => false
  | some a, some b => a ≤ b

/-- `load_data`: if the table has a `Date` column, sort the rows by date
(`NaT` last); otherwise return the table unchanged. -/
def load_data (α : Type) (hasDateCol : Bool) (rows : List (Option Int × α)) :
    List (Option Int × α) :=
  if hasDateCol then rows.mergeSort (fun r s => dateLE r.1 s.1) else rows

theorem dateLE_trans (a b c : Option Int) :
    dateLE a b = true → dateLE b c = true → dateLE a c = true := by
  rcases a with _ | a <;> rcases b with _ | b <;> rcases c with _ | c <;>
    simp [dateLE] <;> omega

theorem dateLE_total (a b : Option Int) : dateLE a b = true ∨ dateLE b a = true := by
  rcases a with _ | a <;> rcases b with _ | b <;> simp [dateLE] <;> omega

/-! ## Volatility-regime transition matrix (`analyze_volatility_regimes`,
`pages/1_Valeurs_Liquidatives.py`)

The regime labels produced by the K-means step are a list over `Fin k`
(`k = n_clusters`).  The transition matrix counts consecutive label pairs and
each row is divided by its total; `np.nan_to_num` turns the `0/0` rows into
zero rows. -/

/-- Consecutive `(from_regime, to_regime)` pairs of the label sequence. -/
def regimePairs {k : ℕ} (labels : List (Fin k)) : List (Fin k × Fin k) :=
  labels.zip labels.tail

/-- `transitions[i, j]`: how often regime `i` is immediately followed by `j`. -/
def transitions {k : ℕ} (labels : List (Fin k)) (i j : Fin k) : ℕ :=
  (regimePairs labels).countP (fun p => p.1 = i ∧ p.2 = j)

/-- `transitions.sum(axis=1)` for row `i`. -/
def transitionRowTotal {k : ℕ} (labels : List (Fin k)) (i : Fin k) : ℕ :=
  ∑ j, transitions labels i j

/-- `transition_probs`: each row normalised by its total, with the `NaN`
rows (zero total) replaced by `0` as `np.nan_to_num` does. -/
def transition_probs {k : ℕ} (labels : List (Fin k)) (i j : Fin k) : ℚ :=
  if transitionRowTotal labels i = 0 then 0
  else (transitions labels i j : ℚ) / (transitionRowTotal labels i : ℚ)

theorem sum_countP_pairs {k : ℕ} (ps : List (Fin k × Fin k)) (i : Fin k) :
    (∑ j, ps.countP (fun p => p.1 = i ∧ p.2 = j)) =
      ps.countP (fun p => p.1 = i) := by
  induction ps with
  | nil => simp
  | cons p ps ih =>
    simp only [List.countP_cons]
    rw [Finset.sum_add_distrib, ih]
    congr 1
    by_cases h1 : p.1 = i
    · simp [h1]
    · simp [h1]

theorem countP_pairs_pos_iff {k : ℕ} (ps : List (Fin k × Fin k)) (i : Fin k) :
    0 < ps.countP (fun p => p.1 = i) ↔ i ∈ ps.map Prod.fst := by
  rw [List.countP_pos]
  constructor
  · rintro ⟨p, hp, hpi⟩
    simp only [decide_eq_true_eq] at hpi
    exact List.mem_map.mpr ⟨p, hp, hpi⟩
  · intro h
    rcases List.mem_map.mp h with ⟨p, hp, hpi⟩
    exact ⟨p, hp, by simp [hpi]⟩

theorem map_fst_zip_tail {α : Type} : ∀ (l : List α),
    (l.zip l.tail).map Prod.fst = l.dropLast
  | [] => rfl
  | [_] => rfl
  | a :: b :: t => by
    have ih := map_fst_zip_tail (b :: t)
    simp only [List.tail_cons, List.zip_cons_cons, List.map_cons] at ih ⊢
    rw [ih]
    rfl

/-! ## Composition page (`pages/5_Composition_FCP.py`)

A composition record carries the asset class, the grouping key used inside a
class (`Secteur`, `Pays`, `Cotation`, ...) and the percentage.
`groupby(key)['Pourcentage'].sum()` is modelled by `groupbySum`. -/

/-- One row of the `Composition FCP` sheet, reduced to the columns the
proportions computation reads. -/
structure CompositionRow where
  classe : String
  secteur : String
  pourcentage : ℚ

/-- Sum of the values of the rows whose key equals `key`
(`df[df[k]==key]['Pourcentage'].sum()`). -/
def keySum (rows : List (String × ℚ)) (key : String) : ℚ :=
  ((rows.filter (fun r => r.1 = key)).map Prod.snd).sum

/-- `df.groupby(k)['Pourcentage'].sum()`: one entry per distinct key with the
summed values. -/
def groupbySum (rows : List (String × ℚ)) : List (String × ℚ) :=
  ((rows.map Prod.fst).dedup).map (fun key => (key, keySum rows key))

/-- Round to two decimals (`.round(2)`, numpy half-to-even). -/
def round2 (x : ℚ) : ℚ :=
  let y := x * 100
  let f := ⌊y⌋
  let frac := y - f
  (if frac < 1 / 2 then f
   else if 1 / 2 < frac then f + 1
   else if f % 2 = 0 then f else f + 1 : ℤ) / 100

/-- `allocation_classe`: per-class percentage totals of the selected fund. -/
def allocation_classe (fcp_data : List CompositionRow) : List (String × ℚ) :=
  groupbySum (fcp_data.map (fun r => (r.classe, r.pourcentage)))

/-- The `Proportion (%)` column the details tab derives for one class:
per-key sums over the class rows, divided by the class total, times 100,
rounded to two decimals. -/
def proportions_in_class (fcp_data : List CompositionRow) (classe : String) :
    List (String × ℚ) :=
  let classe_total := keySum (fcp_data.map (fun r => (r.classe, r.pourcentage))) classe
  let classe_data := fcp_data.filter (fun r => r.classe = classe)
  (groupbySum (classe_data.map (fun r => (r.secteur, r.pourcentage)))).map
    (fun g => (g.1, round2 (g.2 / classe_total * 100)))

/-- The same column without the final two-decimal rounding. -/
def proportions_in_class_exact (fcp_data : List CompositionRow) (classe : String) :
    List (String × ℚ) :=
  let classe_total := keySum (fcp_data.map (fun r => (r.classe, r.pourcentage))) classe
  let classe_data := fcp_data.filter (fun r => r.classe = classe)
  (groupbySum (classe_data.map (fun r => (r.secteur, r.pourcentage)))).map
    (fun g => (g.1, g.2 / classe_total * 100))

theorem keySum_eq_zero_of_not_mem (rows : List (String × ℚ)) (key : String)
    (h : key ∉ rows.map Prod.fst) : keySum rows key = 0 := by
  have : rows.filter (fun r => r.1 = key) = [] := by
    rw [List.filter_eq_nil]
    intro r hr hk
    simp only [decide_eq_true_eq] at hk
    exact h (List.mem_map.mpr ⟨r, hr, hk⟩)
  simp [keySum, this]

theorem keySum_cons (r : String × ℚ) (rows : List (String × ℚ)) (key : String) :
    keySum (r :: rows) key = (if r.1 = key then r.2 else 0) + keySum rows key := by
  by_cases h : r.1 = key
  · simp [keySum, List.filter_cons, h]
  · simp [keySum, List.filter_cons, h]

theorem sum_map_add_qc {α : Type} (l : List α) (f g : α → ℚ) :
    (l.map (fun a => f a + g a)).sum = (l.map f).sum + (l.map g).sum := by
  induction l with
  | nil => simp
  | cons a l ih => simp [ih]; ring

theorem sum_map_ite_zero_of_not_mem (ks : List String) (a : String) (v : ℚ)
    (ha : a ∉ ks) : (ks.map (fun k => if a = k then v else 0)).sum = 0 := by
  induction ks with
  | nil => simp
  | cons k ks ih =>
    have hak : a ≠ k := fun h => ha (h ▸ List.mem_cons_self k ks)
    have ha' : a ∉ ks := fun h => ha (List.mem_cons_of_mem k h)
    simp [hak, ih ha']

theorem sum_map_ite_of_nodup (ks : List String) (a : String) (v : ℚ)
    (hnd : ks.Nodup) (ha : a ∈ ks) :
    (ks.map (fun k => if a = k then v else 0)).sum = v := by
  induction ks with
  | nil => cases ha
  | cons k ks ih =>
    rcases List.mem_cons.mp ha with rfl | ha'
    · have hout : a ∉ ks := (List.nodup_cons.mp hnd).1
      simp [sum_map_ite_zero_of_not_mem ks a v hout]
    · have hak : a ≠ k := by
        rintro rfl
        exact (List.nodup_cons.mp hnd).1 ha'
      simp [hak, ih (List.nodup_cons.mp hnd).2 ha']

theorem sum_keySum_of_cover (rows : List (String × ℚ)) (ks : List String)
    (hnd : ks.Nodup) (hsub : ∀ r ∈ rows, (r : String × ℚ).1 ∈ ks) :
    (ks.map (keySum rows)).sum = (rows.map Prod.snd).sum := by
  induction rows with
  | nil =>
    have : ks.map (keySum []) = ks.map (fun _ => (0 : ℚ)) :=
      List.map_congr_left (fun k _ => by simp [keySum])
    simp [this]
  | cons r rows ih =>
    have h1 : ks.map (keySum (r :: rows)) =
        ks.map (fun k => (if r.1 = k then r.2 else 0) + keySum rows k) :=
      List.map_congr_left (fun k _ => keySum_cons r rows k)
    rw [h1, sum_map_add_qc,
      sum_map_ite_of_nodup ks r.1 r.2 hnd (hsub r (List.mem_cons_self r rows)),
      ih (fun s hs => hsub s (List.mem_cons_of_mem r hs))]
    simp

/-- `groupby(...).sum()` preserves the total of the summed column. -/
theorem groupbySum_total (rows : List (String × ℚ)) :
    ((groupbySum rows).map Prod.snd).sum = (rows.map Prod.snd).sum := by
  have h := sum_keySum_of_cover rows (rows.map Prod.fst).dedup
    (List.nodup_dedup _)
    (fun r hr => List.mem_dedup.mpr (List.mem_map.mpr ⟨r, hr, rfl⟩))
  rw [groupbySum, List.map_map]
  exact h

theorem sum_map_div_mul (l : List ℚ) (t c : ℚ) :
    (l.map (fun x => x / t * c)).sum = l.sum / t * c := by
  induction l with
  | nil => simp
  | cons a l ih =>
    simp only [List.map_cons, List.sum_cons, ih]
    ring

/-- The class total read off the per-class allocation equals the plain sum of
the percentages of the class's rows. -/
theorem keySum_classe (fcp_data : List CompositionRow) (classe : String) :
    keySum (fcp_data.map (fun r => (r.classe, r.pourcentage))) classe =
      ((fcp_data.filter (fun r => r.classe = classe)).map
        (fun r => r.pourcentage)).sum := by
  induction fcp_data with
  | nil => simp [keySum]
  | cons r rows ih =>
    by_cases h : r.classe = classe
    · simp [keySum, List.filter_cons, h] at ih ⊢
      exact ih
    · simp [keySum, List.filter_cons, h] at ih ⊢
      exact ih

/-! ## 7-dimension risk-profile normalisation
(`normalize_7d_risk_profile`, `pages/1_Valeurs_Liquidatives.py`) -/

/-- The seven dimensions of `calculate_7d_risk_profile`. -/
inductive Dim where
  | stabilite
  | resilience
  | recuperation
  | protectionExtreme
  | asymetrie
  | sharpeStable
  | painRatio
deriving DecidableEq

/-- Membership in `inverse_dimensions` (the "less is better" dimensions). -/
def isInverseDim : Dim → Bool
  | Dim.stabilite => true
  | Dim.resilience => true
  | Dim.recuperation => true
  | Dim.protectionExtreme => true
  | Dim.sharpeStable => true
  | _ => false

def SKEWNESS_SCALE_FACTOR : ℚ := 25

def SKEWNESS_NEUTRAL_SCORE : ℚ := 50

/-- The normalised score of one raw `value` in dimension `d`, given all the
funds' raw profiles: min-max scaling to `[0, 100]` (`50` when all values
coincide), inversion for the "less is better" dimensions, and the special
skewness transformation that overrides the min-max score for `Asymétrie`. -/
def normalize_7d_one (profiles : List (Dim → ℚ)) (value : ℚ) (d : Dim) : ℚ :=
  let all_values := profiles.map (fun p => p d)
  let min_val := listMin all_values
  let max_val := listMax all_values
  let norm0 := if min_val < max_val
    then (value - min_val) / (max_val - min_val) * 100 else 50
  let norm1 := if isInverseDim d then 100 - norm0 else norm0
  if d = Dim.asymetrie then
    (if 0 ≤ value then
        SKEWNESS_NEUTRAL_SCORE + min (value * SKEWNESS_SCALE_FACTOR) SKEWNESS_NEUTRAL_SCORE
      else
        SKEWNESS_NEUTRAL_SCORE + max (value * SKEWNESS_SCALE_FACTOR) (-SKEWNESS_NEUTRAL_SCORE))
  else norm1

/-- `normalize_7d_risk_profile`: every fund's profile normalised against the
whole collection. -/
def normalize_7d_risk_profile (profiles : List (String × (Dim → ℚ))) :
    List (String × (Dim → ℚ)) :=
  profiles.map (fun q =>
    (q.1, fun d => normalize_7d_one (profiles.map Prod.snd) (q.2 d) d))

theorem foldl_min_mem : ∀ (xs : List ℚ) (x : ℚ), xs.foldl min x ∈ x :: xs := by
  intro xs
  induction xs with
  | nil => intro x; simp
  | cons a xs ih =>
    intro x
    show xs.foldl min (min x a) ∈ x :: a :: xs
    rcases List.mem_cons.mp (ih (min x a)) with h | h
    · rw [h]
      rcases min_choice x a with hc | hc
      · rw [hc]; exact List.mem_cons_self _ _
      · rw [hc]; exact List.mem_cons_of_mem _ (List.mem_cons_self _ _)
    · exact List.mem_cons_of_mem _ (List.mem_cons_of_mem _ h)

theorem listMin_mem {l : List ℚ} (h : l ≠ []) : listMin l ∈ l := by
  cases l with
  | nil => exact absurd rfl h
  | cons a xs => exact foldl_min_mem xs a

theorem foldl_max_mem : ∀ (xs : List ℚ) (x : ℚ), xs.foldl max x ∈ x :: xs := by
  intro xs
  induction xs with
  | nil => intro x; simp
  | cons a xs ih =>
    intro x
    show xs.foldl max (max x a) ∈ x :: a :: xs
    rcases List.mem_cons.mp (ih (max x a)) with h | h
    · rw [h]
      rcases max_choice x a with hc | hc
      · rw [hc]; exact List.mem_cons_self _ _
      · rw [hc]; exact List.mem_cons_of_mem _ (List.mem_cons_self _ _)
    · exact List.mem_cons_of_mem _ (List.mem_cons_of_mem _ h)

theorem listMax_mem {l : List ℚ} (h : l ≠ []) : listMax l ∈ l := by
  cases l with
  | nil => exact absurd rfl h
  | cons a xs => exact foldl_max_mem xs a

/-- Any normalised score of a raw value drawn from the collection lies in
`[0, 100]`. -/
theorem normalize_7d_one_range (profiles : List (Dim → ℚ)) (value : ℚ) (d : Dim)
    (hv : value ∈ profiles.map (fun p => p d)) :
    0 ≤ normalize_7d_one profiles value d ∧
      normalize_7d_one profiles value d ≤ 100 := by
  have hmin := listMin_le_of_mem hv
  have hmax := le_listMax_of_mem hv
  unfold normalize_7d_one
  set mn := listMin (profiles.map (fun p => p d)) with hmn
  set mx := listMax (profiles.map (fun p => p d)) with hmx
  have hnorm0 : 0 ≤ (if mn < mx then (value - mn) / (mx - mn) * 100 else 50) ∧
      (if mn < mx then (value - mn) / (mx - mn) * 100 else 50) ≤ 100 := by
    by_cases hlt : mn < mx
    · have hpos : (0 : ℚ) < mx - mn := by linarith
      constructor
      · simp only [if_pos hlt]
        have : 0 ≤ (value - mn) / (mx - mn) :=
          div_nonneg (by linarith) (le_of_lt hpos)
        linarith
      · simp only [if_pos hlt]
        have h1 : (value - mn) / (mx - mn) ≤ 1 :=
          (div_le_one hpos).mpr (by linarith)
        linarith
    · constructor <;> norm_num [hlt]
  by_cases hd : d = Dim.asymetrie
  · subst hd
    rw [if_pos rfl]
    simp only [SKEWNESS_NEUTRAL_SCORE, SKEWNESS_SCALE_FACTOR]
    by_cases hval : 0 ≤ value
    · simp only [if_pos hval]
      constructor
      · have : (0 : ℚ) ≤ min (value * 25) 50 :=
          le_min (by positivity) (by norm_num)
        linarith
      · have : min (value * 25) 50 ≤ 50 := min_le_right _ _
        linarith
    · simp only [if_neg hval]
      push_neg at hval
      constructor
      · have : (-50 : ℚ) ≤ max (value * 25) (-50) := le_max_right _ _
        linarith
      · have : max (value * 25) (-50) ≤ 0 :=
          max_le (by nlinarith) (by norm_num)
        linarith
  · rw [if_neg hd]
    by_cases hinv : isInverseDim d
    · rw [if_pos hinv]
      constructor
      · linarith [hnorm0.2]
      · linarith [hnorm0.1]
    · rw [if_neg hinv]
      exact hnorm0

/-- When every raw value of dimension `d` coincides with `value` and `d` is not
the skewness dimension, the min-max step degenerates and the score is `50`. -/
theorem normalize_7d_one_const (profiles' : List (Dim → ℚ)) (value : ℚ) (d : Dim)
    (hv : value ∈ profiles'.map (fun f => f d))
    (hconst : ∀ x ∈ profiles'.map (fun f => f d), x = value)
    (hd : d ≠ Dim.asymetrie) :
    normalize_7d_one profiles' value d = 50 := by
  have hne : profiles'.map (fun f => f d) ≠ [] := by
    intro h
    rw [h] at hv
    cases hv
  have hmn : listMin (profiles'.map (fun f => f d)) = value :=
    hconst _ (listMin_mem hne)
  have hmx : listMax (profiles'.map (fun f => f d)) = value :=
    hconst _ (listMax_mem hne)
  simp only [normalize_7d_one, hmn, hmx, lt_irrefl, if_false, if_neg hd]
  by_cases hinv : isInverseDim d
  · rw [if_pos hinv]
    norm_num
  · rw [if_neg hinv]

/-! ## VL contribution (`calculate_vl_contribution`, `pages/3_Actifs_Nets.py`)

A series is a list of `(date, value)` pairs (a frame after `set_index('Date')`).
The common dates are the intersection of the two indexes, in the order of the
net-assets index (both frames are loaded date-sorted). -/

/-- The index intersection of the two series. -/
def commonDates (dfA dfV : List (Int × ℚ)) : List Int :=
  (dfA.map Prod.fst).filter (fun d => d ∈ dfV.map Prod.fst)

/-- `.loc[d]` on a date-indexed series (0 if the date is absent; the callers
only use dates present in the index). -/
def seriesAt (s : List (Int × ℚ)) (d : Int) : ℚ :=
  (s.lookup d).getD 0

/-- The net-asset change over the aligned period
(`actifs_aligned.iloc[-1] - actifs_aligned.iloc[0]`). -/
def netAssetsChange (dfA dfV : List (Int × ℚ)) : ℚ :=
  let common := commonDates dfA dfV
  seriesAt dfA (common.getLastD 0) - seriesAt dfA (common.headD 0)

/-- `calculate_vl_contribution`: `none` models the `None, None, None` return on
fewer than two common dates; otherwise the pair
(VL contribution %, flow contribution %). -/
def calculate_vl_contribution (dfA dfV : List (Int × ℚ)) : Option (ℚ × ℚ) :=
  let common := commonDates dfA dfV
  if common.length < 2 then none
  else
    let d0 := common.headD 0
    let dn := common.getLastD 0
    let a0 := seriesAt dfA d0
    let an := seriesAt dfA dn
    let v0 := seriesAt dfV d0
    let vn := seriesAt dfV dn
    let actifs_change := an - a0
    let shares_start := a0 / v0
    let vl_contribution_abs := shares_start * (vn - v0)
    if actifs_change ≠ 0 then
      some (vl_contribution_abs / actifs_change * 100,
            100 - vl_contribution_abs / actifs_change * 100)
    else
      some (0, 0)

/-! ## Maximum drawdown (`calculate_max_drawdown`, `utils.py`)

`(1 + prices.pct_change()).cumprod()` has a leading `NaN` which pandas skips
in `cumprod`, `expanding().max()` and `min()`; the embedding works with the
`n - 1` defined entries and returns `none` when every entry is `NaN` (a
single-price series), as `min()` over an all-`NaN` series is `NaN`. -/

/-- `prices.pct_change().dropna()`: consecutive relative changes. -/
def pct_change (prices : List ℚ) : List ℚ :=
  (prices.zip prices.tail).map (fun p => (p.2 - p.1) / p.1)

def cumprodAux : ℚ → List ℚ → List ℚ
  | _, [] => []
  | acc, x :: xs => (acc * x) :: cumprodAux (acc * x) xs

/-- `Series.cumprod()` (over the defined entries). -/
def cumprod (l : List ℚ) : List ℚ := cumprodAux 1 l

def runningMaxAux : ℚ → List ℚ → List ℚ
  | _, [] => []
  | acc, x :: xs => (max acc x) :: runningMaxAux (max acc x) xs

/-- `Series.expanding().max()`: prefix maxima. -/
def runningMax : List ℚ → List ℚ
  | [] => []
  | x :: xs => x :: runningMaxAux x xs

/-- `(cumulative - running_max) / running_max * 100`, elementwise. -/
def drawdowns (prices : List ℚ) : List ℚ :=
  let c := cumprod ((pct_change prices).map (fun r => 1 + r))
  (c.zip (runningMax c)).map (fun p => (p.1 - p.2) / p.2 * 100)

/-- `calculate_max_drawdown`: 0 on an empty series, else the minimum drawdown;
`none` models the `NaN` that `min()` yields when no drawdown entry is defined
(a one-element price series). -/
def calculate_max_drawdown (prices : List ℚ) : Option ℚ :=
  if prices.length = 0 then some 0
  else
    match drawdowns prices with
    | [] => none
    | x :: xs => some (listMin (x :: xs))

/-- On a series of at least two prices the first defined drawdown entry is `0`
(the first cumulative value is its own running peak). -/
theorem drawdowns_two_head (p0 p1 : ℚ) (rest : List ℚ) :
    ∃ x t, drawdowns (p0 :: p1 :: rest) = x :: t ∧ x = 0 := by
  simp only [drawdowns, pct_change, List.tail_cons, List.zip_cons_cons,
    List.map_cons, cumprod, cumprodAux, runningMax]
  exact ⟨_, _, rfl, by rw [sub_self, zero_div, zero_mul]⟩

/-! ## VaR / CVaR (`calculate_risk_metrics`, `pages/1_Valeurs_Liquidatives.py`)

`np.percentile(a, q)` with the default linear interpolation: on the sorted
data `s` of length `n`, the value at fractional position `q/100 * (n-1)`. -/

/-- `np.percentile(l, q)` (linear interpolation, the numpy default). -/
def percentile (l : List ℚ) (q : ℚ) : ℚ :=
  let s := l.mergeSort (fun a b => a ≤ b)
  let n := s.length
  let pos := q * ((n : ℚ) - 1) / 100
  let i : ℕ := (⌊pos⌋).toNat
  let x0 := s.getD i 0
  let x1 := s.getD (i + 1) x0
  x0 + (pos - (i : ℚ)) * (x1 - x0)

/-- The `(VaR 95, CVaR 95)` pair of `calculate_risk_metrics`:
`var_95 = np.percentile(returns, 5)`;
`cvar_95 = returns[returns <= var_95].mean()`. -/
def risk_metrics_var_cvar (returns : List ℚ) : ℚ × ℚ :=
  let var_95 := percentile returns 5
  (var_95, listMean (returns.filter (fun r => r ≤ var_95)))

/-- The sorted copy `np.percentile` works on is sorted and a permutation. -/
theorem mergeSort_le_sorted (l : List ℚ) :
    (l.mergeSort (fun a b => a ≤ b)).Sorted (· ≤ ·) := by
  have h := @List.sorted_mergeSort ℚ (fun a b => decide (a ≤ b))
    (fun a b c h1 h2 => by
      simp only [decide_eq_true_eq] at h1 h2 ⊢
      exact le_trans h1 h2)
    (fun a b => by
      rcases le_total a b with h | h <;> simp [h])
    l
  exact List.Pairwise.imp (fun h => by simpa using h) h

/-- On a non-empty list the 5th percentile is at least some element of the
list (namely the sorted element at the interpolation's lower index). -/
theorem exists_mem_le_percentile (l : List ℚ) (h : l ≠ []) :
    ∃ x ∈ l, x ≤ percentile l 5 := by
  set s := l.mergeSort (fun a b => a ≤ b) with hs
  have hperm : s.Perm l := List.mergeSort_perm l _
  have hsne : s ≠ [] := by
    intro hnil
    exact h (List.Perm.nil_eq (hnil ▸ hperm)).symm
  have hn : 1 ≤ s.length := List.length_pos.mpr hsne
  set n := s.length with hnn
  set pos : ℚ := 5 * ((n : ℚ) - 1) / 100 with hpos
  have hpos0 : 0 ≤ pos := by
    rw [hpos]
    have h1 : (1 : ℚ) ≤ (n : ℚ) := by exact_mod_cast hn
    apply div_nonneg (by nlinarith) (by norm_num)
  have hfl0 : 0 ≤ ⌊pos⌋ := Int.floor_nonneg.mpr hpos0
  set i : ℕ := (⌊pos⌋).toNat with hi
  have hcasti : (i : ℚ) ≤ pos := by
    have h1 : ((i : ℕ) : ℚ) = ((⌊pos⌋ : ℤ) : ℚ) := by
      rw [hi]
      exact_mod_cast Int.toNat_of_nonneg hfl0
    rw [h1]
    exact Int.floor_le pos
  have hposlt : pos ≤ (n : ℚ) - 1 := by
    rw [hpos]
    have h1 : (0 : ℚ) ≤ (n : ℚ) - 1 := by
      have : (1 : ℚ) ≤ (n : ℚ) := by exact_mod_cast hn
      linarith
    linarith
  have hilt : i < n := by
    have : (i : ℚ) ≤ (n : ℚ) - 1 := le_trans hcasti hposlt
    have : (i : ℚ) < (n : ℚ) := by linarith
    exact_mod_cast this
  have hx0 : s.getD i 0 = s.get ⟨i, hilt⟩ := List.getD_eq_get s 0 hilt
  have hx0mem : s.get ⟨i, hilt⟩ ∈ l :=
    hperm.subset (List.get_mem s i hilt)
  refine ⟨s.get ⟨i, hilt⟩, hx0mem, ?_⟩
  show s.get ⟨i, hilt⟩ ≤ s.getD i 0 + (pos - (i : ℚ)) *
    (s.getD (i + 1) (s.getD i 0) - s.getD i 0)
  rw [hx0]
  have hfrac : 0 ≤ pos - (i : ℚ) := by linarith
  have hstep : s.get ⟨i, hilt⟩ ≤ s.getD (i + 1) (s.get ⟨i, hilt⟩) := by
    by_cases hsucc : i + 1 < n
    · rw [List.getD_eq_get s _ hsucc]
      exact List.Sorted.rel_get_of_lt (mergeSort_le_sorted l)
        (by exact Nat.lt_succ_self i)
    · rw [List.getD_eq_default s _ (by omega)]
  nlinarith [hstep]

/-! ## Sharpe ratio (`calculate_sharpe_ratio`, `utils.py`)

Real-valued because of the `np.sqrt(periods_per_year)` annualisation factor.
`Series.std()` is the sample standard deviation (`ddof=1`), which is `NaN`
(modelled `none`) on a series of fewer than two elements.  In that case the
Python test `excess_returns.std() == 0` is False (`NaN == 0`), so the
function does *not* take the early `return 0` and the final quotient is
`NaN` as well. -/

/-- `Series.mean()` over the reals. -/
noncomputable def meanR (l : List ℝ) : ℝ := l.sum / l.length

/-- `Series.var(ddof=1)`: sample variance; `NaN` (`none`) on fewer than two
elements, where pandas divides by `n - 1 ≤ 0`. -/
noncomputable def sampleVarR (l : List ℝ) : Option ℝ :=
  if l.length ≤ 1 then none
  else some (((l.map (fun x => (x - meanR l) ^ 2)).sum) / ((l.length : ℝ) - 1))

/-- `Series.std()`: sample standard deviation (`NaN` as in `sampleVarR`). -/
noncomputable def stdR (l : List ℝ) : Option ℝ := (sampleVarR l).map Real.sqrt

/-- `calculate_sharpe_ratio(returns, risk_free_rate, periods_per_year)`;
`none` is a `NaN` result: when the std is `NaN`, `NaN == 0` is False, the
zero-std early return is skipped and `mean / NaN * sqrt(p)` is `NaN`. -/
noncomputable def calculate_sharpe_ratio (returns : List ℝ) (risk_free_rate : ℝ)
    (periods_per_year : ℕ) : Option ℝ :=
  if returns.length = 0 then some 0
  else
    let excess := returns.map (fun r => r - risk_free_rate / periods_per_year)
    match stdR excess with
    | none => none
    | some s =>
        if s = 0 then some 0
        else some (meanR excess / s * Real.sqrt periods_per_year)

theorem excess_zero_rate (returns : List ℝ) (p : ℕ) :
    returns.map (fun r => r - (0 : ℝ) / p) = returns := by
  have : (fun r : ℝ => r - 0 / p) = fun r : ℝ => r := by
    funext r
    rw [zero_div, sub_zero]
  rw [this, List.map_id']

theorem stdR_none_of_short (l : List ℝ) (h : l.length ≤ 1) : stdR l = none := by
  rw [stdR, sampleVarR, if_pos h]
  rfl

theorem sampleVarR_02 : sampleVarR [0, 2] = some 2 := by
  rw [sampleVarR, if_neg (by norm_num)]
  norm_num [meanR]

theorem stdR_02 : stdR [0, 2] = some (Real.sqrt 2) := by
  rw [stdR, sampleVarR_02]
  rfl

theorem sqrt2_ne_zero : Real.sqrt 2 ≠ 0 :=
  Real.sqrt_ne_zero'.mpr (by norm_num)

end FCP

/-! # Claims -/

namespace FCP

/-- **C5**: for each flow record the signed amount equals the amount on a
subscription and the negated amount on a redemption, so over any set of
records whose operation is a subscription or a redemption, the total signed
flow equals total subscriptions minus total redemptions. -/
theorem net_flows_signed_decomposition (df : List FlowRecord)
    (h : ∀ r ∈ df, r.operations = "Souscriptions" ∨ r.operations = "Rachats") :
    (∀ r ∈ df, (r.operations = "Souscriptions" → montantSigne r = r.montant) ∧
      (r.operations = "Rachats" → montantSigne r = -r.montant)) ∧
    ((calculate_net_flows df).map Prod.snd).sum =
      totalByOperation df "Souscriptions" - totalByOperation df "Rachats" := by
  constructor
  · intro r _
    constructor
    · intro hop
      simp [montantSigne, hop]
    · intro hop
      simp [montantSigne, hop]
  · induction df with
    | nil => simp [calculate_net_flows, totalByOperation]
    | cons r df ih =>
      have hr := h r (List.mem_cons_self r df)
      have ihs := ih (fun s hs => h s (List.mem_cons_of_mem r hs))
      rcases hr with hop | hop
      · simp only [calculate_net_flows, totalByOperation, List.map_cons,
          List.sum_cons, List.filter_cons, List.map_map, Function.comp_def,
          montantSigne] at ihs ⊢
        simp only [hop] at ihs ⊢
        simp at ihs ⊢
        rw [ihs]; ring
      · simp only [calculate_net_flows, totalByOperation, List.map_cons,
          List.sum_cons, List.filter_cons, List.map_map, Function.comp_def,
          montantSigne] at ihs ⊢
        simp only [hop] at ihs ⊢
        simp at ihs ⊢
        rw [ihs]; ring

/-- Witness for `net_flows_signed_decomposition` at a concrete two-record list. -/
theorem net_flows_signed_decomposition_witness :
    (∀ r ∈ [FlowRecord.mk 0 "F1" "Souscriptions" "Inst" 30,
            FlowRecord.mk 1 "F1" "Rachats" "Inst" 12],
        r.operations = "Souscriptions" ∨ r.operations = "Rachats") ∧
    ((calculate_net_flows [FlowRecord.mk 0 "F1" "Souscriptions" "Inst" 30,
            FlowRecord.mk 1 "F1" "Rachats" "Inst" 12]).map Prod.snd).sum =
      totalByOperation [FlowRecord.mk 0 "F1" "Souscriptions" "Inst" 30,
            FlowRecord.mk 1 "F1" "Rachats" "Inst" 12] "Souscriptions" -
      totalByOperation [FlowRecord.mk 0 "F1" "Souscriptions" "Inst" 30,
            FlowRecord.mk 1 "F1" "Rachats" "Inst" 12] "Rachats" := by
  refine ⟨by decide, ?_⟩
  exact (net_flows_signed_decomposition _ (by decide)).2

/-- **C4**: with a `Date` column, `load_data` returns the rows in non-decreasing
date order (`NaT` last); without one, the rows are returned unchanged. -/
theorem load_data_date_sorted (α : Type) (hasDateCol : Bool)
    (rows : List (Option Int × α)) :
    (hasDateCol = true →
      (load_data α hasDateCol rows).Pairwise (fun r s => dateLE r.1 s.1 = true)) ∧
    (hasDateCol = false → load_data α hasDateCol rows = rows) := by
  constructor
  · intro h
    have hs := @List.sorted_mergeSort (Option Int × α)
      (fun r s => dateLE r.1 s.1)
      (fun a b c h1 h2 => dateLE_trans a.1 b.1 c.1 h1 h2)
      (fun a b => by
        rcases dateLE_total a.1 b.1 with h | h <;> simp [h])
      rows
    simpa [load_data, h] using hs
  · intro h
    simp [load_data, h]

/-- **C6**: each row of the transition-probability matrix sums to `1` when the
source regime occurs among the first `n-1` labelled points, and is all zeros
otherwise (for any number of clusters, hence for every `2 ≤ k ≤ 5`). -/
theorem transition_probs_row_sum {k : ℕ} (labels : List (Fin k)) (i : Fin k) :
    ((∑ j, transition_probs labels i j) =
      if i ∈ labels.dropLast then 1 else 0) ∧
    (i ∉ labels.dropLast → ∀ j, transition_probs labels i j = 0) := by
  have hrow : transitionRowTotal labels i =
      (regimePairs labels).countP (fun p => p.1 = i) :=
    sum_countP_pairs (regimePairs labels) i
  have hmem : 0 < (regimePairs labels).countP (fun p => p.1 = i) ↔
      i ∈ labels.dropLast := by
    rw [countP_pairs_pos_iff]
    rw [show (regimePairs labels).map Prod.fst = labels.dropLast from
      map_fst_zip_tail labels]
  by_cases hT : transitionRowTotal labels i = 0
  · have hni : i ∉ labels.dropLast := by
      rw [← hmem, hrow] at *
      omega
    refine ⟨?_, fun _ j => by simp [transition_probs, hT]⟩
    simp [transition_probs, hT, hni]
  · have hi : i ∈ labels.dropLast := by
      rw [← hmem]
      omega
    have hsum : (∑ j, transition_probs labels i j) =
        (∑ j, (transitions labels i j : ℚ)) / (transitionRowTotal labels i : ℚ) := by
      rw [Finset.sum_div]
      exact Finset.sum_congr rfl (fun j _ => by simp [transition_probs, hT])
    have hcast : (∑ j, (transitions labels i j : ℚ)) =
        (transitionRowTotal labels i : ℚ) := by
      rw [transitionRowTotal]
      push_cast
      rfl
    refine ⟨?_, fun hni _ => absurd hi hni⟩
    rw [hsum, hcast, div_self (by exact_mod_cast hT), if_pos hi]

/-- **C7 (amended)**: granted the data invariant that a fund's percentages sum
to 100, the per-class `Proportion (%)` values *before* the final two-decimal
rounding sum to 100 within each class whose total is non-zero; the rounded
column the page displays can deviate from 100 (see the counterexample). -/
theorem proportions_in_class_exact_sum (fcp_data : List CompositionRow)
    (classe : String)
    (hdata : (fcp_data.map (fun r => r.pourcentage)).sum = 100)
    (hT : keySum (fcp_data.map (fun r => (r.classe, r.pourcentage))) classe ≠ 0) :
    ((proportions_in_class_exact fcp_data classe).map Prod.snd).sum = 100 := by
  set T := keySum (fcp_data.map (fun r => (r.classe, r.pourcentage))) classe with hTdef
  have h1 : (proportions_in_class_exact fcp_data classe).map Prod.snd =
      ((groupbySum ((fcp_data.filter (fun r => r.classe = classe)).map
          (fun r => (r.secteur, r.pourcentage)))).map Prod.snd).map
        (fun x => x / T * 100) := by
    simp [proportions_in_class_exact, List.map_map, Function.comp_def, hTdef]
  rw [h1, sum_map_div_mul, groupbySum_total, List.map_map]
  have h2 : ((fcp_data.filter (fun r => r.classe = classe)).map
      (Prod.snd ∘ fun r => (r.secteur, r.pourcentage))).sum = T := by
    rw [hTdef, keySum_classe]
    rfl
  rw [h2, div_self hT]
  norm_num

/-- Witness for `proportions_in_class_exact_sum` on a concrete fund. -/
theorem proportions_in_class_exact_sum_witness :
    ((proportions_in_class_exact [⟨"Actions", "A", 1⟩, ⟨"Actions", "B", 1⟩,
        ⟨"Actions", "C", 1⟩, ⟨"Obligations", "X", 97⟩] "Actions").map
          Prod.snd).sum = 100 := by
  refine proportions_in_class_exact_sum _ "Actions" (by norm_num) ?_
  have h3 : keySum ((([⟨"Actions", "A", 1⟩, ⟨"Actions", "B", 1⟩,
      ⟨"Actions", "C", 1⟩, ⟨"Obligations", "X", 97⟩] : List CompositionRow)).map
        (fun r => (r.classe, r.pourcentage))) "Actions" = 3 := by
    simp [keySum, List.filter]
    norm_num
  rw [h3]
  norm_num

set_option maxHeartbeats 1000000 in
theorem proportions_in_class_example :
    (proportions_in_class [⟨"Actions", "A", 1⟩, ⟨"Actions", "B", 1⟩,
        ⟨"Actions", "C", 1⟩, ⟨"Obligations", "X", 97⟩] "Actions") =
      [("A", 3333 / 100), ("B", 3333 / 100), ("C", 3333 / 100)] := by
  simp only [proportions_in_class, keySum, groupbySum, List.filter, List.map,
    decide_eq_true_eq, List.dedup_cons_of_not_mem, List.mem_cons]
  norm_num [List.dedup, List.filter, round2]

/-- Counterexample to **C7** as stated: a fund whose records do sum to 100,
with an `Actions` class of three sectors at 1% each; the displayed, rounded
`Proportion (%)` values are 33.33 each and sum to 99.99, not 100. -/
theorem proportions_rounded_sum_counterexample :
    ((([⟨"Actions", "A", 1⟩, ⟨"Actions", "B", 1⟩, ⟨"Actions", "C", 1⟩,
        ⟨"Obligations", "X", 97⟩] : List CompositionRow).map
          (fun r => r.pourcentage)).sum = 100) ∧
    ((proportions_in_class [⟨"Actions", "A", 1⟩, ⟨"Actions", "B", 1⟩,
        ⟨"Actions", "C", 1⟩, ⟨"Obligations", "X", 97⟩] "Actions").map
          Prod.snd).sum = 9999 / 100 ∧
    (9999 / 100 : ℚ) ≠ 100 := by
  refine ⟨by norm_num, ?_, by norm_num⟩
  rw [proportions_in_class_example]
  norm_num

/-- **C9 (amended)**: every normalised 7D score lies in `[0, 100]`; when all
funds share the same raw value for a dimension the score is `50` *except* for
the skewness dimension, whose score is always given by the skewness mapping
(`≥ 50` for non-negative skewness, `≤ 50` for negative skewness, clamped to
`[0, 100]` around the neutral score `50`). -/
theorem normalize_7d_scores (profiles : List (String × (Dim → ℚ)))
    (p : String × (Dim → ℚ)) (hp : p ∈ profiles) (d : Dim) :
    ((p.1, fun e => normalize_7d_one (profiles.map Prod.snd) (p.2 e) e) ∈
        normalize_7d_risk_profile profiles) ∧
    (0 ≤ normalize_7d_one (profiles.map Prod.snd) (p.2 d) d ∧
      normalize_7d_one (profiles.map Prod.snd) (p.2 d) d ≤ 100) ∧
    (d ≠ Dim.asymetrie → (∀ q ∈ profiles, (q : String × (Dim → ℚ)).2 d = p.2 d) →
      normalize_7d_one (profiles.map Prod.snd) (p.2 d) d = 50) ∧
    (d = Dim.asymetrie →
      (0 ≤ p.2 d → 50 ≤ normalize_7d_one (profiles.map Prod.snd) (p.2 d) d) ∧
      (p.2 d < 0 → normalize_7d_one (profiles.map Prod.snd) (p.2 d) d ≤ 50)) := by
  have hv : p.2 d ∈ (profiles.map Prod.snd).map (fun f => f d) :=
    List.mem_map.mpr ⟨p.2, List.mem_map.mpr ⟨p, hp, rfl⟩, rfl⟩
  refine ⟨List.mem_map.mpr ⟨p, hp, rfl⟩,
    normalize_7d_one_range (profiles.map Prod.snd) (p.2 d) d hv, ?_, ?_⟩
  · intro hd hall
    refine normalize_7d_one_const (profiles.map Prod.snd) (p.2 d) d hv ?_ hd
    intro x hx
    rcases List.mem_map.mp hx with ⟨f, hf, rfl⟩
    rcases List.mem_map.mp hf with ⟨q, hq, rfl⟩
    exact hall q hq
  · intro hd
    subst hd
    constructor
    · intro hval
      simp only [normalize_7d_one, eq_self_iff_true, if_true, SKEWNESS_NEUTRAL_SCORE,
        SKEWNESS_SCALE_FACTOR, if_pos hval]
      have : (0 : ℚ) ≤ min (p.2 Dim.asymetrie * 25) 50 :=
        le_min (by positivity) (by norm_num)
      linarith
    · intro hval
      simp only [normalize_7d_one, eq_self_iff_true, if_true, SKEWNESS_NEUTRAL_SCORE,
        SKEWNESS_SCALE_FACTOR, if_neg (not_le.mpr hval)]
      have : max (p.2 Dim.asymetrie * 25) (-50) ≤ 0 :=
        max_le (by nlinarith) (by norm_num)
      linarith

/-- Witness for `normalize_7d_scores` on a concrete two-fund collection. -/
theorem normalize_7d_scores_witness :
    (0 ≤ normalize_7d_one ([("F", fun _ => (1 : ℚ)), ("G", fun _ => (4 : ℚ))].map
        Prod.snd) 1 Dim.stabilite ∧
      normalize_7d_one ([("F", fun _ => (1 : ℚ)), ("G", fun _ => (4 : ℚ))].map
        Prod.snd) 1 Dim.stabilite ≤ 100) :=
  (normalize_7d_scores [("F", fun _ => (1 : ℚ)), ("G", fun _ => (4 : ℚ))]
    ("F", fun _ => (1 : ℚ)) (List.mem_cons_self _ _) Dim.stabilite).2.1

/-- Counterexample to **C9** as stated: a collection in which every fund has
raw skewness `3` (a single fund, so the value is trivially shared), yet the
normalised skewness score is `100`, not `50`: the skewness override ignores
the all-equal rule. -/
theorem normalize_7d_all_equal_counterexample :
    ((normalize_7d_risk_profile [("F", fun _ => (3 : ℚ))]).map
        (fun q => q.2 Dim.asymetrie)) = [100] ∧ (100 : ℚ) ≠ 50 := by
  constructor
  · simp only [normalize_7d_risk_profile, normalize_7d_one, List.map_cons,
      List.map_nil, SKEWNESS_NEUTRAL_SCORE, SKEWNESS_SCALE_FACTOR]
    norm_num [listMin, listMax, min_def]
  · norm_num

/-- **C10**: whenever the VL-contribution computation returns percentages (at
least two common dates), they sum to exactly 100 if the net-asset change over
the period is non-zero, and are both 0 if the change is zero. -/
theorem vl_contribution_percentages (dfA dfV : List (Int × ℚ)) (a b : ℚ)
    (h : calculate_vl_contribution dfA dfV = some (a, b)) :
    (netAssetsChange dfA dfV ≠ 0 → a + b = 100) ∧
    (netAssetsChange dfA dfV = 0 → a = 0 ∧ b = 0) := by
  unfold calculate_vl_contribution at h
  by_cases hlen : (commonDates dfA dfV).length < 2
  · rw [if_pos hlen] at h
    cases h
  · rw [if_neg hlen] at h
    have hch : netAssetsChange dfA dfV =
        seriesAt dfA ((commonDates dfA dfV).getLastD 0) -
          seriesAt dfA ((commonDates dfA dfV).headD 0) := rfl
    by_cases hc : seriesAt dfA ((commonDates dfA dfV).getLastD 0) -
        seriesAt dfA ((commonDates dfA dfV).headD 0) ≠ 0
    · rw [if_pos hc] at h
      have h' := Option.some.inj h
      rw [Prod.mk.injEq] at h'
      constructor
      · intro _
        rw [← h'.1, ← h'.2]
        ring
      · intro hzero
        rw [hch] at hzero
        exact absurd hzero hc
    · rw [if_neg hc] at h
      have h' := Option.some.inj h
      rw [Prod.mk.injEq] at h'
      constructor
      · intro hne
        rw [hch] at hne
        exact absurd hne hc
      · intro _
        exact ⟨h'.1.symm, h'.2.symm⟩

/-- Witness for `vl_contribution_percentages` on concrete two-date series. -/
theorem vl_contribution_percentages_witness :
    calculate_vl_contribution [(0, 100), (1, 110)] [(0, 10), (1, 11)] =
      some (100, 0) ∧ (100 : ℚ) + 0 = 100 := by
  have hval : calculate_vl_contribution [(0, 100), (1, 110)] [(0, 10), (1, 11)] =
      some (100, 0) := by
    simp [calculate_vl_contribution, commonDates, seriesAt, List.lookup,
      List.filter]
    norm_num
  refine ⟨hval, ?_⟩
  have hch : netAssetsChange [(0, 100), (1, 110)] [(0, 10), (1, 11)] ≠ 0 := by
    simp [netAssetsChange, commonDates, seriesAt, List.lookup, List.filter]
    norm_num
  exact (vl_contribution_percentages [(0, 100), (1, 110)] [(0, 10), (1, 11)]
    100 0 hval).1 hch

/-- **C1 (amended)**: with the default zero risk-free rate and 252 trading
days: an empty series yields 0; a series with more than one element and zero
standard deviation yields 0; a series with more than one element and non-zero
standard deviation yields the mean return divided by the standard deviation,
**multiplied by `sqrt(252)`** (the annualisation factor the plain
mean-over-volatility reading omits); and a one-element series yields `NaN`,
because `Series.std(ddof=1)` is `NaN` there and `NaN == 0` is False. -/
theorem sharpe_ratio_spec (returns : List ℝ) :
    (returns = [] → calculate_sharpe_ratio returns 0 252 = some 0) ∧
    (1 < returns.length → stdR returns = some 0 →
      calculate_sharpe_ratio returns 0 252 = some 0) ∧
    (∀ s, 1 < returns.length → stdR returns = some s → s ≠ 0 →
      calculate_sharpe_ratio returns 0 252 =
        some (meanR returns / s * Real.sqrt 252)) ∧
    (returns.length = 1 → calculate_sharpe_ratio returns 0 252 = none) := by
  refine ⟨?_, ?_, ?_, ?_⟩
  · rintro rfl
    rfl
  · intro hlen hstd
    unfold calculate_sharpe_ratio
    rw [if_neg (by omega)]
    simp only [excess_zero_rate]
    rw [hstd]
    simp
  · intro s hlen hstd hs
    unfold calculate_sharpe_ratio
    rw [if_neg (by omega)]
    simp only [excess_zero_rate]
    rw [hstd]
    simp only [if_neg hs]
    norm_num
  · intro hlen
    unfold calculate_sharpe_ratio
    rw [if_neg (by omega)]
    simp only [excess_zero_rate]
    rw [stdR_none_of_short returns (by omega)]

/-- Witness for `sharpe_ratio_spec` on the return series `[0, 2]`. -/
theorem sharpe_ratio_spec_witness :
    calculate_sharpe_ratio [0, 2] 0 252 =
      some (meanR [0, 2] / Real.sqrt 2 * Real.sqrt 252) :=
  (sharpe_ratio_spec [0, 2]).2.2.1 (Real.sqrt 2) (by norm_num) stdR_02
    sqrt2_ne_zero

/-- Counterexample to **C1** as stated: the return series `[0, 2]` has more
than one element and non-zero standard deviation (`sqrt 2`), yet the computed
Sharpe ratio is `mean/std * sqrt(252)`, not `mean/std`: the code annualises. -/
theorem sharpe_ratio_counterexample :
    1 < ([0, 2] : List ℝ).length ∧ stdR [0, 2] = some (Real.sqrt 2) ∧
    Real.sqrt 2 ≠ 0 ∧
    calculate_sharpe_ratio [0, 2] 0 252 ≠ some (meanR [0, 2] / Real.sqrt 2) := by
  refine ⟨by norm_num, stdR_02, sqrt2_ne_zero, ?_⟩
  have hval : calculate_sharpe_ratio [0, 2] 0 252 =
      some (meanR [0, 2] / Real.sqrt 2 * Real.sqrt 252) :=
    (sharpe_ratio_spec [0, 2]).2.2.1 (Real.sqrt 2) (by norm_num) stdR_02
      sqrt2_ne_zero
  rw [hval]
  intro heq
  have heq' := Option.some.inj heq
  have hratio : meanR [0, 2] / Real.sqrt 2 ≠ 0 := by
    have hm : meanR [0, 2] = 1 := by norm_num [meanR]
    rw [hm]
    have h2 : (0 : ℝ) < Real.sqrt 2 := Real.sqrt_pos.mpr (by norm_num)
    positivity
  have hsqrt : Real.sqrt 252 = 1 := by
    refine mul_left_cancel₀ hratio ?_
    rw [mul_one, heq']
  have h252 : (252 : ℝ) = 1 := by
    have := congrArg (fun x : ℝ => x ^ 2) hsqrt
    simpa [Real.sq_sqrt] using this
  norm_num at h252

/-- **C3**: on a non-empty return series the computed VaR 95 is the 5th
percentile of the returns and the CVaR 95 is the mean of the returns at or
below that VaR; the averaged subset is non-empty (so the mean is a true
mean). -/
theorem risk_metrics_var_cvar_spec (returns : List ℚ) (h : returns ≠ []) :
    risk_metrics_var_cvar returns =
      (percentile returns 5,
        listMean (returns.filter (fun r => r ≤ percentile returns 5))) ∧
    returns.filter (fun r => r ≤ percentile returns 5) ≠ [] := by
  refine ⟨rfl, ?_⟩
  obtain ⟨x, hxmem, hxle⟩ := exists_mem_le_percentile returns h
  intro hnil
  have hx : x ∈ returns.filter (fun r => r ≤ percentile returns 5) :=
    List.mem_filter.mpr ⟨hxmem, by simpa using hxle⟩
  rw [hnil] at hx
  cases hx

/-- Witness for `risk_metrics_var_cvar_spec` on the return series `[1, 2, 3]`. -/
theorem risk_metrics_var_cvar_spec_witness :
    risk_metrics_var_cvar [1, 2, 3] =
      (percentile [1, 2, 3] 5,
        listMean (([1, 2, 3] : List ℚ).filter
          (fun r => r ≤ percentile [1, 2, 3] 5))) ∧
    ([1, 2, 3] : List ℚ).filter (fun r => r ≤ percentile [1, 2, 3] 5) ≠ [] :=
  risk_metrics_var_cvar_spec [1, 2, 3] (by simp)

/-- **C2 (amended)**: the empty series yields 0; for a series of *two or more*
prices the computation returns the minimum of the per-date percentage declines
of the cumulative-return series from its running peak, and that minimum is
`≤ 0`.  (A one-element series yields `NaN`, not a number `≤ 0`: see the
counterexample.) -/
theorem max_drawdown_spec (prices : List ℚ) :
    (prices = [] → calculate_max_drawdown prices = some 0) ∧
    (2 ≤ prices.length →
      calculate_max_drawdown prices = some (listMin (drawdowns prices)) ∧
      listMin (drawdowns prices) ≤ 0) := by
  constructor
  · rintro rfl
    rfl
  · intro hlen
    rcases prices with _ | ⟨p0, tail⟩
    · simp at hlen
    rcases tail with _ | ⟨p1, rest⟩
    · simp at hlen
    obtain ⟨x, t, hd, hx⟩ := drawdowns_two_head p0 p1 rest
    have hmain : calculate_max_drawdown (p0 :: p1 :: rest) =
        some (listMin (drawdowns (p0 :: p1 :: rest))) := by
      unfold calculate_max_drawdown
      rw [if_neg (by simp), hd]
    refine ⟨hmain, ?_⟩
    rw [hd, hx]
    exact listMin_le_of_mem (List.mem_cons_self 0 t)

/-- Witness for `max_drawdown_spec` on the two-price series `[4, 2]`. -/
theorem max_drawdown_spec_witness :
    2 ≤ ([4, 2] : List ℚ).length ∧
    calculate_max_drawdown [4, 2] = some (listMin (drawdowns [4, 2])) ∧
    listMin (drawdowns [4, 2]) ≤ 0 :=
  ⟨by norm_num, (max_drawdown_spec [4, 2]).2 (by norm_num)⟩

/-- Counterexample to **C2** as stated: the one-element price series `[1]` is
non-empty, yet the computation returns `NaN` (`none`) — pandas takes `min()`
of an all-`NaN` drawdown column — rather than a number `≤ 0`. -/
theorem max_drawdown_single_counterexample :
    calculate_max_drawdown ([1] : List ℚ) = none ∧ ([1] : List ℚ) ≠ [] := by
  constructor
  · rfl
  · simp

/-- Witness for `transition_probs_row_sum` on the label sequence `[0, 1, 0]`
with two regimes. -/
theorem transition_probs_row_sum_witness :
    (∑ j, transition_probs ([0, 1, 0] : List (Fin 2)) 0 j) =
      if (0 : Fin 2) ∈ ([0, 1, 0] : List (Fin 2)).dropLast then 1 else 0 :=
  (transition_probs_row_sum ([0, 1, 0] : List (Fin 2)) 0).1

/-- Witness for `load_data_date_sorted` on a concrete three-row table. -/
theorem load_data_date_sorted_witness :
    (load_data Nat true [(some 5, 0), (none, 1), (some 2, 2)]).Pairwise
      (fun r s => dateLE r.1 s.1 = true) ∧
    load_data Nat false [(some 5, 0), (none, 1), (some 2, 2)] =
      [(some 5, 0), (none, 1), (some 2, 2)] :=
  ⟨(load_data_date_sorted Nat true [(some 5, 0), (none, 1), (some 2, 2)]).1 rfl,
   (load_data_date_sorted Nat false [(some 5, 0), (none, 1), (some 2, 2)]).2 rfl⟩

/-- **C8**: `safe_division` returns the default exactly when the denominator is
zero, `NaN`, or the division raises; otherwise it returns the quotient. -/
theorem safe_division_spec (n d default : PyVal) :
    ((pyEqZero d ∨ pd_isna d ∨ pyDiv n d = none) →
      safe_division n d default = default) ∧
    (∀ v, pyDiv n d = some v → ¬ pyEqZero d → ¬ pd_isna d →
      safe_division n d default = v) := by
  constructor
  · intro h
    rcases h with h | h | h
    · simp [safe_division, h]
    · simp [safe_division, h]
    · by_cases hz : pyEqZero d
      · simp [safe_division, hz]
      · by_cases hn : pd_isna d
        · simp [safe_division, hn]
        · simp [safe_division, hz, hn, h]
  · intro v hv hz hn
    simp only [Bool.not_eq_true] at hz hn
    simp [safe_division, hz, hn, hv]

/-- Witness for `safe_division_spec`: dividing 7 by 2 yields 7/2, and a zero,
`NaN` or string denominator yields the default. -/
theorem safe_division_spec_witness :
    safe_division (PyVal.num 7) (PyVal.num 2) (PyVal.num 0) = PyVal.num (7 / 2) ∧
    safe_division (PyVal.num 7) (PyVal.num 0) (PyVal.num 5) = PyVal.num 5 ∧
    safe_division (PyVal.num 7) PyVal.nan (PyVal.num 5) = PyVal.num 5 ∧
    safe_division (PyVal.num 7) (PyVal.nonNumeric "x") (PyVal.num 5) = PyVal.num 5 := by
  refine ⟨?_, ?_, ?_, ?_⟩
  · exact (safe_division_spec (PyVal.num 7) (PyVal.num 2) (PyVal.num 0)).2
      (PyVal.num (7 / 2)) (by norm_num [pyDiv]) (by decide) (by decide)
  · exact (safe_division_spec (PyVal.num 7) (PyVal.num 0) (PyVal.num 5)).1
      (Or.inl (by decide))
  · exact (safe_division_spec (PyVal.num 7) PyVal.nan (PyVal.num 5)).1
      (Or.inr (Or.inl (by decide)))
  · exact (safe_division_spec (PyVal.num 7) (PyVal.nonNumeric "x") (PyVal.num 5)).1
      (Or.inr (Or.inr (by decide)))

end FCP
